import Mathlib

/-!
# Verification of the gke-10-hackathon crawl-and-index pipeline

Shallow embedding of the crawler service (`crawler-service/crawler_service.py`),
the vector-search provisioning service (`rag_service.py`) and the query-time
retrieval tool (`app/shared_crew_lib`), together with proofs and refutations of
the specification's claims about them.

Text is modelled as `List Char`; Python slice and `str.rfind` semantics are
embedded explicitly (negative indices included).  Loops that the source runs
with `while` are embedded with explicit fuel and return `Option`/`none` when
the fuel runs out, so that non-termination of the source is observable as
`none` for every fuel.
-/

namespace GkeHackathon

/-! ## Python primitives: slicing and rfind over `List Char` -/

/-- Normalisation of one Python slice index: a negative index counts from the
end (clamped below at 0), a non-negative one is clamped above at the length. -/
def pyIdx (n : Nat) (i : Int) : Nat :=
  if i < 0 then ((n : Int) + i).toNat else min i.toNat n

/-- Python slice `s[a:b]`: the elements at positions `pyIdx n a ≤ j < pyIdx n b`. -/
def pySlice (s : List Char) (a b : Int) : List Char :=
  (s.take (pyIdx s.length b)).drop (pyIdx s.length a)

/-- Python `str.rfind(c)` for a single character: the highest index at which
`c` occurs, and `-1` when it does not occur. -/
def rfindChar : List Char → Char → Int
  | [], _ => -1
  | a :: as, c =>
    let r := rfindChar as c
    if 0 ≤ r then r + 1 else if a = c then 0 else -1

theorem rfindChar_lt_length (s : List Char) (c : Char) :
    rfindChar s c < (s.length : Int) := by
  induction s with
  | nil => simp [rfindChar]
  | cons a as ih =>
    simp only [rfindChar, List.length_cons]
    split
    · push_cast; omega
    · split <;> push_cast <;> omega

theorem neg_one_le_rfindChar (s : List Char) (c : Char) :
    -1 ≤ rfindChar s c := by
  induction s with
  | nil => simp [rfindChar]
  | cons a as ih =>
    simp only [rfindChar]
    split
    · omega
    · split <;> omega

/-- The length of a Python slice `s[a : a+k]` is at most `k` (for any `a`,
negative indices included). -/
theorem pySlice_length_le (s : List Char) (a : Int) (k : Nat) :
    (pySlice s a (a + k)).length ≤ k := by
  simp only [pySlice, List.length_drop, List.length_take, pyIdx, min_def]
  split_ifs <;> omega

/-- When `0 ≤ a` and `0 ≤ b ≤ length`, a Python slice is the ordinary
take-then-drop slice. -/
theorem pySlice_of_nonneg (s : List Char) (a b : Int) (ha : 0 ≤ a)
    (hb : 0 ≤ b) (hbl : b ≤ (s.length : Int)) :
    pySlice s a b = (s.take b.toNat).drop a.toNat := by
  simp only [pySlice, pyIdx]
  rw [if_neg (by omega), if_neg (by omega),
    min_eq_left (show b.toNat ≤ s.length by omega)]
  rcases le_or_lt a.toNat s.length with h | h
  · rw [min_eq_left h]
  · have hlen : (s.take b.toNat).length ≤ s.length := by
      rw [List.length_take, min_def]
      split_ifs <;> omega
    rw [min_eq_right h.le, List.drop_eq_nil_of_le hlen,
      List.drop_eq_nil_of_le (hlen.trans h.le)]

/-! ## `CrawlerService._split_text_into_chunks`

Embedding of the chunking loop of `crawler_service.py`:

    while start < len(text):
        end = start + max_chunk_size
        if end >= len(text):
            chunks.append(text[start:]); break
        chunk_text = text[start:end]
        last_period = chunk_text.rfind('.')
        last_newline = chunk_text.rfind('\n')
        split_point = max(last_period, last_newline)
        if split_point > start + max_chunk_size // 2:
            end = start + split_point + 1
        chunks.append(text[start:end])
        start = end - overlap

The loop is given explicit fuel; `none` means the fuel ran out. -/

/-- The cut position `end` chosen for the window starting at `start`:
`chunk_text = text[start : start+max_chunk_size]`, `split_point` is the last
`'.'` or `'\n'` in it, and the cut moves to `start + split_point + 1` exactly
when `split_point > start + max_chunk_size // 2` (note: the source compares
the window-relative `split_point` against the absolute `start + ...`). -/
def chunkEnd (text : List Char) (maxChunkSize : Nat) (start : Int) : Int :=
  let chunkText := pySlice text start (start + maxChunkSize)
  let lastPeriod := rfindChar chunkText '.'
  let lastNewline := rfindChar chunkText '\n'
  let splitPoint := max lastPeriod lastNewline
  if start + ((maxChunkSize / 2 : Nat) : Int) < splitPoint then
    start + splitPoint + 1
  else start + maxChunkSize

def splitLoop (text : List Char) (maxChunkSize overlap : Nat) :
    Nat → Int → List (List Char) → Option (List (List Char))
  | 0, _, _ => none
  | fuel + 1, start, chunks =>
    if start < (text.length : Int) then
      if (text.length : Int) ≤ start + maxChunkSize then
        some (chunks ++ [pySlice text start text.length])
      else
        splitLoop text maxChunkSize overlap fuel
          (chunkEnd text maxChunkSize start - overlap)
          (chunks ++ [pySlice text start (chunkEnd text maxChunkSize start)])
    else some chunks

/-- `CrawlerService._split_text_into_chunks(text, max_chunk_size, overlap)`.
The source defaults are `max_chunk_size = 1000`, `overlap = 100`. -/
def split_text_into_chunks (text : List Char) (maxChunkSize overlap : Nat)
    (fuel : Nat) : Option (List (List Char)) :=
  if text.length ≤ maxChunkSize then some [text]
  else splitLoop text maxChunkSize overlap fuel 0 []

theorem chunkEnd_le (text : List Char) (m : Nat) (start : Int) :
    chunkEnd text m start ≤ start + m := by
  unfold chunkEnd
  dsimp only
  split_ifs with h
  · have h1 := rfindChar_lt_length (pySlice text start (start + m)) '.'
    have h2 := rfindChar_lt_length (pySlice text start (start + m)) '\n'
    have h3 := pySlice_length_le text start m
    rcases max_cases (rfindChar (pySlice text start (start + m)) '.')
        (rfindChar (pySlice text start (start + m)) '\n') with ⟨heq, _⟩ | ⟨heq, _⟩ <;>
      rw [heq] <;> omega
  · omega

theorem le_chunkEnd (text : List Char) (m : Nat) (start : Int) :
    start ≤ chunkEnd text m start := by
  unfold chunkEnd
  dsimp only
  split_ifs with h
  · have h1 := neg_one_le_rfindChar (pySlice text start (start + m)) '.'
    have h2 := neg_one_le_rfindChar (pySlice text start (start + m)) '\n'
    rcases max_cases (rfindChar (pySlice text start (start + m)) '.')
        (rfindChar (pySlice text start (start + m)) '\n') with ⟨heq, _⟩ | ⟨heq, _⟩ <;>
      rw [heq] <;> omega
  · omega

/-- With a non-negative window start and `overlap ≤ max_chunk_size / 2`, every
window makes at least `overlap` characters of progress from `start` to the cut. -/
theorem add_overlap_le_chunkEnd (text : List Char) (m ov : Nat) (start : Int)
    (hs : 0 ≤ start) (hov : ov ≤ m / 2) :
    start + ov ≤ chunkEnd text m start := by
  unfold chunkEnd
  dsimp only
  split_ifs with h
  · omega
  · omega

/-- A Python slice `s[a:b]` with `a ≤ b ≤ a + k` has length at most `k`. -/
theorem pySlice_length_le_of_le (s : List Char) (a b : Int) (k : Nat)
    (hab : a ≤ b) (hbk : b ≤ a + k) : (pySlice s a b).length ≤ k := by
  have hk : b = a + (((b - a).toNat : Nat) : Int) := by omega
  calc (pySlice s a b).length
      = (pySlice s a (a + (((b - a).toNat : Nat) : Int))).length := by rw [← hk]
    _ ≤ (b - a).toNat := pySlice_length_le s a (b - a).toNat
    _ ≤ k := by omega

/-! ## Claim C1: the chunking loop has no forward-progress fallback

On `text = "abcdefgh.xyzklmnop"` (18 characters, a period at index 8) with
`max_chunk_size = 10` and `overlap = 9 ∈ [0, 10)`, the first window cuts at
the period (`split_point = 8 > 5`), giving `end = 9`, and then
`start = end - overlap = 0` again: the window start never advances and the
loop runs forever.  There is no hard-advancement fallback in the source. -/

def c1text : List Char := "abcdefgh.xyzklmnop".toList

theorem c1_step (n : Nat) (chunks : List (List Char)) :
    splitLoop c1text 10 9 (n + 1) 0 chunks =
      splitLoop c1text 10 9 n 0 (chunks ++ [pySlice c1text 0 9]) := rfl

theorem c1_stuck (fuel : Nat) :
    ∀ chunks, splitLoop c1text 10 9 fuel 0 chunks = none := by
  induction fuel with
  | zero => intro chunks; rfl
  | succ n ih => intro chunks; rw [c1_step]; exact ih _

/-- C1: the claim that `_split_text_into_chunks` terminates for every
non-empty text and every `overlap ∈ [0, max_chunk_size)` thanks to a
hard-advancement fallback is false on the code: on the 18-character text
`"abcdefgh.xyzklmnop"` with `max_chunk_size = 10`, `overlap = 9`, the loop
re-enters the same state (`start = 0`) forever — the fueled embedding returns
`none` for every fuel. -/
theorem C1_no_forward_progress_fallback (fuel : Nat) :
    split_text_into_chunks c1text 10 9 fuel = none := by
  unfold split_text_into_chunks
  rw [if_neg (by decide)]
  exact c1_stuck fuel []

/-! ## Claim C4: the boundary test in windows after the first

On `text = "abcdefghijklmnopqr.stuvwx"` (25 characters, a period at index 18)
with `max_chunk_size = 10`, `overlap = 0`: the second window is
`text[10:20] = "klmnopqr.s"`, whose last period sits at window-relative
position 8, past the midpoint `10 // 2 = 5`.  The spec says the cut should be
placed there; the code instead compares `8 > start + 5 = 15`, which fails, and
emits the full hard window. -/

def c4text : List Char := "abcdefghijklmnopqr.stuvwx".toList

/-- C4: in the second window the last `'.'` of the window lies at relative
position 8, past the midpoint 5, yet the emitted second chunk is the whole
hard window `"klmnopqr.s"` (the cut is at the window edge 20, not at the
boundary 19): the code compares the window-relative boundary position against
the absolute `start + max_chunk_size // 2`, so the claimed midpoint rule only
ever fires in the first window. -/
theorem C4_later_windows_ignore_boundary :
    rfindChar (pySlice c4text 10 20) '.' = 8 ∧ 10 / 2 < 8 ∧
      split_text_into_chunks c4text 10 0 30 =
        some ["abcdefghij".toList, "klmnopqr.s".toList, "tuvwx".toList] := by
  refine ⟨by decide, by decide, ?_⟩
  decide

/-! ## Claim C5: every chunk is at most `max_chunk_size` long -/

theorem splitLoop_length_le (t : List Char) (m ov : Nat) :
    ∀ (fuel : Nat) (start : Int) (acc res : List (List Char)),
      (∀ c ∈ acc, c.length ≤ m) →
      splitLoop t m ov fuel start acc = some res →
      ∀ c ∈ res, c.length ≤ m := by
  intro fuel
  induction fuel with
  | zero => intro start acc res hacc h; exact absurd h (by simp [splitLoop])
  | succ n ih =>
    intro start acc res hacc h
    rw [splitLoop] at h
    split_ifs at h with h1 h2
    · rcases Option.some_inj.mp h with rfl
      intro c hc
      rcases List.mem_append.mp hc with hc | hc
      · exact hacc c hc
      · rcases List.mem_singleton.mp hc with rfl
        exact pySlice_length_le_of_le t start (t.length) m h1.le h2
    · refine ih _ _ _ ?_ h
      intro c hc
      rcases List.mem_append.mp hc with hc | hc
      · exact hacc c hc
      · rcases List.mem_singleton.mp hc with rfl
        exact pySlice_length_le_of_le t start (chunkEnd t m start) m
          (le_chunkEnd t m start) (chunkEnd_le t m start)
    · rcases Option.some_inj.mp h with rfl
      exact hacc

/-- C5: for every text, `max_chunk_size`, `overlap` and fuel, whenever the
chunking loop returns, every returned chunk (the last one included) has length
at most `max_chunk_size`; and when `len(text) ≤ max_chunk_size` the result is
exactly `[text]`. -/
theorem C5_chunk_length_bound (text : List Char) (m ov fuel : Nat)
    (res : List (List Char))
    (h : split_text_into_chunks text m ov fuel = some res) :
    (∀ c ∈ res, c.length ≤ m) ∧ (text.length ≤ m → res = [text]) := by
  unfold split_text_into_chunks at h
  split_ifs at h with hle
  · rcases Option.some_inj.mp h with rfl
    refine ⟨?_, fun _ => rfl⟩
    intro c hc
    rcases List.mem_singleton.mp hc with rfl
    exact hle
  · exact ⟨splitLoop_length_le text m ov fuel 0 [] res (by simp) h,
      fun hcon => absurd hcon hle⟩

/-- Witness for C5 at a concrete input: the 25-character text
`"abcdefghijklmnopqrstuvwxy"` with `max_chunk_size = 10`, `overlap = 3`. -/
theorem C5_chunk_length_bound_witness :
    (∀ c ∈ ["abcdefghij".toList, "hijklmnopq".toList, "opqrstuvwx".toList,
        "vwxy".toList], c.length ≤ 10) ∧
      ("abcdefghijklmnopqrstuvwxy".toList.length ≤ 10 →
        ["abcdefghij".toList, "hijklmnopq".toList, "opqrstuvwx".toList,
          "vwxy".toList] = ["abcdefghijklmnopqrstuvwxy".toList]) :=
  C5_chunk_length_bound "abcdefghijklmnopqrstuvwxy".toList 10 3 30
    ["abcdefghij".toList, "hijklmnopq".toList, "opqrstuvwx".toList,
      "vwxy".toList] (by decide)

/-! ## Claim C6: overlap chaining and exact reconstruction -/

/-- `text[a:b]` restricted to non-negative positions. -/
def sliceN (t : List Char) (a b : Nat) : List Char := (t.take b).drop a

/-- Concatenating chunks "with `overlap` characters discounted": the first
chunk whole, every later chunk with its first `overlap` characters dropped. -/
def reconstruct (ov : Nat) : List (List Char) → List Char
  | [] => []
  | c :: rest => c ++ (rest.map (fun d => d.drop ov)).flatten

/-- Every chunk after the first begins with exactly the last `overlap`
characters of the previous chunk. -/
def overlapChained (ov : Nat) : List (List Char) → Bool
  | c1 :: c2 :: rest =>
    (c2.take ov == c1.drop (c1.length - ov)) && overlapChained ov (c2 :: rest)
  | _ => true

theorem sliceN_eq_take_drop (t : List Char) (a b : Nat) :
    sliceN t a b = (t.drop a).take (b - a) := List.drop_take b a t

theorem drop_sliceN (t : List Char) (a b k : Nat) :
    (sliceN t a b).drop k = sliceN t (a + k) b := List.drop_drop k a (t.take b)

theorem take_sliceN (t : List Char) (a b k : Nat) (h : a + k ≤ b) :
    (sliceN t a b).take k = sliceN t a (a + k) := by
  rw [sliceN_eq_take_drop, sliceN_eq_take_drop, List.take_take,
    min_eq_left (by omega)]
  congr 1
  omega

theorem length_sliceN (t : List Char) (a b : Nat) (_h1 : a ≤ b)
    (h2 : b ≤ t.length) : (sliceN t a b).length = b - a := by
  simp only [sliceN, List.length_drop, List.length_take, min_def]
  split_ifs <;> omega

theorem take_append_sliceN (t : List Char) (a b : Nat) (h : a ≤ b) :
    t.take a ++ sliceN t a b = t.take b := by
  have := List.take_append_drop a (t.take b)
  rwa [List.take_take, min_eq_left h] at this

theorem reconstruct_append (ov : Nat) (acc : List (List Char)) (c : List Char)
    (h : acc ≠ []) :
    reconstruct ov (acc ++ [c]) = reconstruct ov acc ++ c.drop ov := by
  match acc with
  | [] => exact absurd rfl h
  | x :: rest =>
    simp [reconstruct, List.append_assoc]

theorem overlapChained_append (ov : Nat) (c lc : List Char)
    (hc : c.take ov = lc.drop (lc.length - ov)) :
    ∀ acc : List (List Char), acc.getLast? = some lc →
      overlapChained ov acc = true → overlapChained ov (acc ++ [c]) = true := by
  intro acc
  induction acc with
  | nil => intro h; simp at h
  | cons x rest ih =>
    intro h hchain
    cases rest with
    | nil =>
      simp only [List.getLast?_singleton, Option.some_inj] at h
      subst h
      simp [overlapChained, hc]
    | cons y tl =>
      rw [List.cons_append, List.cons_append]
      have hstep := hchain
      rw [overlapChained, Bool.and_eq_true] at hstep
      rw [overlapChained, Bool.and_eq_true]
      refine ⟨hstep.1, ?_⟩
      have := ih (by rwa [List.getLast?_cons_cons] at h) hstep.2
      rwa [List.cons_append] at this

/-- C6 counterexample: on `text = "abcdef.ghij"` (11 characters) with
`max_chunk_size = 10`, `overlap = 8`, the chunking terminates with
`["abcdef.", "", "bcdef.ghij"]`: the second chunk is empty (it does not begin
with the last 8 characters of the first), and concatenation with the overlap
discounted yields `"abcdef.ij"`, dropping the characters `g`, `h`. -/
theorem C6_counterexample :
    split_text_into_chunks "abcdef.ghij".toList 10 8 30 =
        some ["abcdef.".toList, "".toList, "bcdef.ghij".toList] ∧
      overlapChained 8
        ["abcdef.".toList, "".toList, "bcdef.ghij".toList] = false ∧
      reconstruct 8 ["abcdef.".toList, "".toList, "bcdef.ghij".toList] =
        "abcdef.ij".toList ∧
      "abcdef.ij".toList ≠ "abcdef.ghij".toList := by
  refine ⟨by decide, by decide, by decide, by decide⟩

theorem splitLoop_reconstruct (t : List Char) (m ov : Nat)
    (hov : ov ≤ m / 2) (hlen : m < t.length) :
    ∀ (fuel : Nat) (s : Nat) (acc res : List (List Char)),
      ((acc = [] ∧ s = 0) ∨
        (acc ≠ [] ∧ s + ov ≤ t.length ∧
          reconstruct ov acc = t.take (s + ov) ∧
          overlapChained ov acc = true ∧
          ∃ a, a ≤ s ∧ acc.getLast? = some (sliceN t a (s + ov)))) →
      splitLoop t m ov fuel (s : Int) acc = some res →
      reconstruct ov res = t ∧ overlapChained ov res = true := by
  intro fuel
  induction fuel with
  | zero => intro s acc res _ h; exact absurd h (by simp [splitLoop])
  | succ n ih =>
    intro s acc res hinv h
    rw [splitLoop] at h
    split_ifs at h with h1 h2
    · -- final window: `chunks.append(text[start:]); break`
      rcases Option.some_inj.mp h with rfl
      have hbreak : pySlice t (s : Int) (t.length : Int) = t.drop s := by
        rw [pySlice_of_nonneg t _ _ (by positivity) (by positivity) le_rfl,
          Int.toNat_natCast, Int.toNat_natCast, List.take_length]
      rcases hinv with ⟨rfl, rfl⟩ | ⟨hne, hsov, hrec, hchain, a, ha, hlast⟩
      · exact absurd h2 (by push_cast; omega)
      · rw [hbreak]
        constructor
        · rw [reconstruct_append ov acc _ hne, hrec, List.drop_drop,
            List.take_append_drop]
        · refine overlapChained_append ov _ _ ?_ acc hlast hchain
          have hslen : (sliceN t a (s + ov)).length = s + ov - a :=
            length_sliceN t a (s + ov) (by omega) hsov
          rw [hslen]
          have h2' : s + ov - a - ov = s - a := by omega
          rw [h2', drop_sliceN]
          have h3' : a + (s - a) = s := by omega
          rw [h3', sliceN_eq_take_drop]
          congr 1
          omega
    · -- middle window: recurse with `start = end - overlap`
      have hs0 : (0 : Int) ≤ (s : Int) := by positivity
      have he1 := le_chunkEnd t m (s : Int)
      have he2 := chunkEnd_le t m (s : Int)
      have he3 := add_overlap_le_chunkEnd t m ov (s : Int) hs0 hov
      have helen : chunkEnd t m (s : Int) < (t.length : Int) := by
        push_cast at h2 ⊢
        omega
      set e : Int := chunkEnd t m (s : Int) with hedef
      have heN : e = ((e.toNat : Nat) : Int) := by omega
      have hchunk : pySlice t (s : Int) e = sliceN t s e.toNat := by
        rw [pySlice_of_nonneg t _ _ hs0 (by omega) (by omega),
          Int.toNat_natCast, sliceN]
      have harg : e - (ov : Int) = ((e.toNat - ov : Nat) : Int) := by omega
      rw [harg, hchunk] at h
      refine ih (e.toNat - ov) (acc ++ [sliceN t s e.toNat]) res (Or.inr ?_) h
      have hov_le : s + ov ≤ e.toNat := by omega
      have heq : e.toNat - ov + ov = e.toNat := by omega
      refine ⟨by simp, by omega, ?_, ?_, ⟨s, by omega, ?_⟩⟩
      · rw [heq]
        rcases hinv with ⟨rfl, rfl⟩ | ⟨hne, hsov, hrec, hchain, a, ha, hlast⟩
        · simp only [List.nil_append, reconstruct, List.map_nil,
            List.flatten_nil, List.append_nil]
          rw [sliceN_eq_take_drop, Nat.sub_zero, List.drop_zero]
        · rw [reconstruct_append ov acc _ hne, hrec, drop_sliceN,
            take_append_sliceN t (s + ov) e.toNat hov_le]
      · rcases hinv with ⟨rfl, rfl⟩ | ⟨hne, hsov, hrec, hchain, a, ha, hlast⟩
        · rfl
        · refine overlapChained_append ov _ _ ?_ acc hlast hchain
          have hslen : (sliceN t a (s + ov)).length = s + ov - a :=
            length_sliceN t a (s + ov) (by omega) hsov
          rw [hslen]
          have h2' : s + ov - a - ov = s - a := by omega
          rw [h2', drop_sliceN]
          have h3' : a + (s - a) = s := by omega
          rw [h3', take_sliceN t s e.toNat ov hov_le]
      · rw [List.getLast?_concat, heq]
    · -- loop guard false on entry: `start ≥ len(text)`
      rcases Option.some_inj.mp h with rfl
      rcases hinv with ⟨rfl, rfl⟩ | ⟨hne, hsov, hrec, hchain, a, ha, hlast⟩
      · exact absurd h1 (by push_cast; omega)
      · have hs_len : s + ov = t.length := by push_cast at h1; omega
        rw [hs_len] at hrec
        rw [List.take_length] at hrec
        exact ⟨hrec, hchain⟩

/-- C6 (amended): for `overlap ≤ max_chunk_size / 2` — which includes the
source defaults `overlap = 100`, `max_chunk_size = 1000` — whenever the
chunking of a text longer than `max_chunk_size` terminates, every chunk after
the first begins with exactly the last `overlap` characters of the previous
chunk, and concatenating the chunks with the overlap discounted reconstructs
the original text exactly.  (For larger overlaps this fails even on
terminating runs: see the counterexample.) -/
theorem C6_overlap_reconstruction (text : List Char) (m ov fuel : Nat)
    (res : List (List Char)) (hov : ov ≤ m / 2) (hlen : m < text.length)
    (h : split_text_into_chunks text m ov fuel = some res) :
    reconstruct ov res = text ∧ overlapChained ov res = true := by
  unfold split_text_into_chunks at h
  rw [if_neg (by omega)] at h
  exact splitLoop_reconstruct text m ov hov hlen fuel 0 [] res
    (Or.inl ⟨rfl, rfl⟩) (by exact_mod_cast h)

/-- Witness for C6 at a concrete input: 25 characters, `max_chunk_size = 10`,
`overlap = 3 ≤ 10 / 2`. -/
theorem C6_overlap_reconstruction_witness :
    reconstruct 3 ["abcdefghij".toList, "hijklmnopq".toList,
        "opqrstuvwx".toList, "vwxy".toList] =
      "abcdefghijklmnopqrstuvwxy".toList ∧
    overlapChained 3 ["abcdefghij".toList, "hijklmnopq".toList,
        "opqrstuvwx".toList, "vwxy".toList] = true :=
  C6_overlap_reconstruction "abcdefghijklmnopqrstuvwxy".toList 10 3 30
    ["abcdefghij".toList, "hijklmnopq".toList, "opqrstuvwx".toList,
      "vwxy".toList] (by decide) (by decide) (by decide)

/-! ## `CrawlerService._crawl_website`

Embedding of the batched breadth-first crawl loop.  Network fetching
(`_crawl_single_page`) is abstracted as a function
`fetch : String → Option FetchResult`: `none` models every skip case of the
source (exception, non-200 status, non-HTML content type, empty text).  The
page record built by `_crawl_single_page` carries the *fetched* URL
(`page_data = {'url': url, ...}`), which `taskResult` mirrors; the loop's own
bookkeeping uses the batch URL of `zip(batch_urls, results)`. -/

structure PageData where
  url : String
  title : String
  content : String
deriving DecidableEq, Repr

structure FetchResult where
  title : String
  content : String
  links : List String
deriving DecidableEq, Repr

structure CrawlState where
  pages_data : List PageData
  visited_urls : List String
  urls_to_visit : List String
deriving DecidableEq, Repr

/-- The `for new_url in new_urls` frontier-insertion loop of `_crawl_website`:
a discovered URL is enqueued only if not visited, not already queued, and
`len(pages_data) + len(urls_to_visit) < max_pages_per_site`. -/
def addLinks (maxPages : Nat) (st : CrawlState) (new_urls : List String) :
    CrawlState :=
  new_urls.foldl (fun st new_url =>
    if new_url ∉ st.visited_urls ∧ new_url ∉ st.urls_to_visit ∧
        st.pages_data.length + st.urls_to_visit.length < maxPages then
      { st with urls_to_visit := st.urls_to_visit ++ [new_url] }
    else st) st

/-- Processing of one `(url, result)` pair of `zip(batch_urls, results)`:
mark `url` visited; on a successful result append its page record and run the
frontier-insertion loop on its links. -/
def processOne (maxPages : Nat) (st : CrawlState)
    (pr : String × Option (PageData × List String)) : CrawlState :=
  let st1 := { st with visited_urls :=
    if pr.1 ∈ st.visited_urls then st.visited_urls
    else st.visited_urls ++ [pr.1] }
  match pr.2 with
  | none => st1
  | some (page_data, new_urls) =>
    addLinks maxPages { st1 with pages_data := st1.pages_data ++ [page_data] }
      new_urls

/-- The value `_crawl_single_page(session, semaphore, url, base_domain)`
resolves to: `None` on failure, otherwise `(page_data, links)` with
`page_data['url'] = url`. -/
def taskResult (fetch : String → Option FetchResult) (url : String) :
    Option (PageData × List String) :=
  (fetch url).map (fun fr => (⟨url, fr.title, fr.content⟩, fr.links))

/-- The `while urls_to_visit and len(pages_data) < self.max_pages_per_site`
loop of `_crawl_website`, with explicit fuel.  Note the source's
`zip(batch_urls, results)` where `results` comes from the *filtered* task
list: when some batch URLs are already visited the pairs are misaligned. -/
def crawlLoop (fetch : String → Option FetchResult) (maxPages conc : Nat) :
    Nat → CrawlState → Option (List PageData)
  | 0, _ => none
  | fuel + 1, st =>
    if st.urls_to_visit ≠ [] ∧ st.pages_data.length < maxPages then
      let batch_urls := st.urls_to_visit.take conc
      let st1 := { st with urls_to_visit := st.urls_to_visit.drop conc }
      let task_urls := batch_urls.filter (fun u => !st.visited_urls.contains u)
      if task_urls = [] then
        crawlLoop fetch maxPages conc fuel st1
      else
        crawlLoop fetch maxPages conc fuel
          ((batch_urls.zip (task_urls.map (taskResult fetch))).foldl
            (processOne maxPages) st1)
    else some st.pages_data

/-- `CrawlerService._crawl_website(base_url)`; in the source
`maxPages = max_pages_per_site = 50` and `conc = max_concurrent_requests = 5`. -/
def crawl_website (fetch : String → Option FetchResult)
    (maxPages conc fuel : Nat) (base_url : String) : Option (List PageData) :=
  crawlLoop fetch maxPages conc fuel ⟨[], [], [base_url]⟩

/-! ## Claim C2: the page budget -/

theorem addLinks_pages_data (mp : Nat) (new_urls : List String) :
    ∀ st : CrawlState, (addLinks mp st new_urls).pages_data = st.pages_data := by
  induction new_urls with
  | nil => intro st; rfl
  | cons u rest ih =>
    intro st
    simp only [addLinks, List.foldl_cons] at ih ⊢
    rw [ih]
    split_ifs <;> rfl

theorem processOne_pages_length_le (mp : Nat) (st : CrawlState)
    (pr : String × Option (PageData × List String)) :
    (processOne mp st pr).pages_data.length ≤ st.pages_data.length + 1 := by
  rcases pr with ⟨u, _ | ⟨pd, links⟩⟩
  · simp [processOne]
  · simp [processOne, addLinks_pages_data]

theorem foldl_processOne_pages_length_le (mp : Nat) :
    ∀ (l : List (String × Option (PageData × List String))) (st : CrawlState),
      ((l.foldl (processOne mp) st).pages_data.length ≤
        st.pages_data.length + l.length) := by
  intro l
  induction l with
  | nil => intro st; simp
  | cons pr rest ih =>
    intro st
    have h1 := ih (processOne mp st pr)
    have h2 := processOne_pages_length_le mp st pr
    simp only [List.foldl_cons, List.length_cons]
    omega

theorem crawlLoop_length_le (fetch : String → Option FetchResult)
    (mp conc : Nat) :
    ∀ (fuel : Nat) (st : CrawlState) (res : List PageData),
      st.pages_data.length ≤ mp + conc - 1 →
      crawlLoop fetch mp conc fuel st = some res →
      res.length ≤ mp + conc - 1 := by
  intro fuel
  induction fuel with
  | zero => intro st res _ h; exact absurd h (by simp [crawlLoop])
  | succ n ih =>
    intro st res hst h
    rw [crawlLoop] at h
    dsimp only at h
    split_ifs at h with h1 h2
    · refine ih _ _ ?_ h
      simpa using hst
    · refine ih _ _ ?_ h
      have hzip : ((st.urls_to_visit.take conc).zip
          (((st.urls_to_visit.take conc).filter
            (fun u => !st.visited_urls.contains u)).map
              (taskResult fetch))).length ≤ conc := by
        have hz : ∀ (l1 : List String)
            (l2 : List (Option (PageData × List String))),
            (l1.zip l2).length ≤ l1.length := by
          intro l1 l2
          rw [List.length_zip, min_def]
          split_ifs <;> omega
        exact le_trans (hz _ _) (List.length_take_le conc st.urls_to_visit)
      have hfold := foldl_processOne_pages_length_le mp
        ((st.urls_to_visit.take conc).zip
          (((st.urls_to_visit.take conc).filter
            (fun u => !st.visited_urls.contains u)).map (taskResult fetch)))
        { st with urls_to_visit := st.urls_to_visit.drop conc }
      have hlt : st.pages_data.length < mp := h1.2
      simp only at hfold
      omega
    · rcases Option.some_inj.mp h with rfl
      exact hst

/-- C2 (amended): for every fetch behaviour, seed URL, page budget
`max_pages_per_site` and batch size `max_concurrent_requests`, a completed
crawl returns at most `max_pages_per_site + max_concurrent_requests - 1` page
records.  The claimed bound of `max_pages_per_site` itself is false: the
budget is only re-checked between batches, so a full batch started at
`max_pages_per_site - 1` collected pages can overshoot by up to
`max_concurrent_requests - 1` (see the counterexample). -/
theorem C2_budget_overshoot_bound (fetch : String → Option FetchResult)
    (maxPages conc fuel : Nat) (base_url : String) (res : List PageData)
    (h : crawl_website fetch maxPages conc fuel base_url = some res) :
    res.length ≤ maxPages + conc - 1 :=
  crawlLoop_length_le fetch maxPages conc fuel _ res (Nat.zero_le _) h

/-- A site on which the crawl with `max_pages_per_site = 10` and
`max_concurrent_requests = 5` fetches 11 pages: the seed links to
`l1..l9` (all admitted: `1 + 8 < 10` still holds for the ninth), `l1` links to
`g1..g4`, and the third batch `[l6, l7, l8, l9, g1]` starts with only 6 pages
collected and pushes the total to 11. -/
def fetchC2 : String → Option FetchResult := fun u =>
  if u = "s" then
    some ⟨"", "", ["l1", "l2", "l3", "l4", "l5", "l6", "l7", "l8", "l9"]⟩
  else if u = "l1" then some ⟨"", "", ["g1", "g2", "g3", "g4"]⟩
  else if u ∈ ["l2", "l3", "l4", "l5", "l6", "l7", "l8", "l9",
      "g1", "g2", "g3", "g4"] then some ⟨"", "", []⟩
  else none

/-- C2 counterexample: with a page budget of 10 the crawl returns 11 page
records, so "the list contains at most `max_pages_per_site` elements" is
false on the code. -/
theorem C2_budget_counterexample :
    (crawl_website fetchC2 10 5 10 "s").map List.length = some 11 ∧ 10 < 11 :=
  ⟨by decide, by decide⟩

/-- Witness for C2 at a concrete input: a fetch that always fails yields a
completed crawl with 0 pages, within the amended bound. -/
theorem C2_budget_overshoot_bound_witness :
    ([] : List PageData).length ≤ 10 + 5 - 1 :=
  C2_budget_overshoot_bound (fun _ => none) 10 5 5 "s" [] (by decide)

/-! ## Claim C3: no URL is ever fetched twice

The source filters already-visited URLs out of `tasks` but then iterates
`zip(batch_urls, results)`: when the filter removed some batch URL, every
following pair is misaligned — the *wrong* URL is marked visited while the
fetched URL never is, so it can be re-enqueued and re-fetched later. -/

/-- A five-page site exhibiting the misalignment: `s → [a, b]`,
`a → [b, c]`, `b → []`, `c → [d]`, `d → [c]`.  While processing the batch
`[a, b]`, page `a` re-enqueues `b` (removed from the frontier but not yet
marked visited); the next batch is `[b, c]` with `b` filtered out of the
tasks, so `zip` pairs `b` with `c`'s result: `c`'s record is stored while
only `b` is marked visited.  When `d` later links back to `c`, `c` is fetched
a second time. -/
def fetchC3 : String → Option FetchResult := fun u =>
  if u = "s" then some ⟨"", "", ["a", "b"]⟩
  else if u = "a" then some ⟨"", "", ["b", "c"]⟩
  else if u = "b" then some ⟨"", "", []⟩
  else if u = "c" then some ⟨"", "", ["d"]⟩
  else if u = "d" then some ⟨"", "", ["c"]⟩
  else none

/-- C3: the claim that one crawl session never fetches the same URL twice and
never returns two page records with the same `url` is false on the code: on
the `fetchC3` site the returned records' URLs are
`["s", "a", "b", "c", "d", "c"]`, containing `"c"` twice. -/
theorem C3_duplicate_url_counterexample :
    (crawl_website fetchC3 50 5 10 "s").map (List.map PageData.url) =
        some ["s", "a", "b", "c", "d", "c"] ∧
      ¬ (["s", "a", "b", "c", "d", "c"] : List String).Nodup :=
  ⟨by decide, by decide⟩

/-! ## Claim C7: domain scope

The link-retention filter of `_crawl_single_page` (lines 206–213) keeps a
link only when `urlparse(absolute_url).netloc == base_domain`; URL parsing
and joining are abstracted as functions `netloc` and `urljoin`. -/

/-- The `for link in soup.find_all('a', href=True)` loop of
`_crawl_single_page`: each href is resolved against the page's own URL and
kept only when its netloc equals `base_domain`. -/
def extract_links (urljoin : String → String → String)
    (netloc : String → String) (page_url : String) (hrefs : List String)
    (base_domain : String) : List String :=
  hrefs.foldl (fun links href =>
    if netloc (urljoin page_url href) = base_domain then
      links ++ [urljoin page_url href]
    else links) []

theorem extract_links_foldl_netloc (urljoin : String → String → String)
    (netloc : String → String) (page_url base_domain : String) :
    ∀ (hrefs acc : List String), (∀ l ∈ acc, netloc l = base_domain) →
      ∀ l ∈ hrefs.foldl (fun links href =>
          if netloc (urljoin page_url href) = base_domain then
            links ++ [urljoin page_url href]
          else links) acc,
        netloc l = base_domain := by
  intro hrefs
  induction hrefs with
  | nil => intro acc hacc; exact hacc
  | cons href rest ih =>
    intro acc hacc
    rw [List.foldl_cons]
    apply ih
    intro l hl
    by_cases hc : netloc (urljoin page_url href) = base_domain
    · rw [if_pos hc] at hl
      rcases List.mem_append.mp hl with h | h
      · exact hacc _ h
      · rcases List.mem_singleton.mp h with rfl
        exact hc
    · rw [if_neg hc] at hl
      exact hacc _ hl

theorem addLinks_netloc (mp : Nat) (netloc : String → String) (nl : String) :
    ∀ new_urls : List String, (∀ l ∈ new_urls, netloc l = nl) →
      ∀ st : CrawlState, (∀ u ∈ st.urls_to_visit, netloc u = nl) →
        ∀ u ∈ (addLinks mp st new_urls).urls_to_visit, netloc u = nl := by
  intro new_urls
  induction new_urls with
  | nil => intro _ st hst; exact hst
  | cons l rest ih =>
    intro hlinks st hst
    simp only [addLinks, List.foldl_cons] at ih ⊢
    apply ih (fun x hx => hlinks x (List.mem_cons_of_mem l hx))
    intro u hu
    split_ifs at hu
    · simp only [List.mem_append] at hu
      rcases hu with hu | hu
      · exact hst u hu
      · rw [List.mem_singleton.mp hu]
        exact hlinks l (List.mem_cons_self l rest)
    · exact hst u hu

theorem processOne_netloc (mp : Nat) (netloc : String → String) (nl : String)
    (pr : String × Option (PageData × List String))
    (hpr : ∀ pd links, pr.2 = some (pd, links) →
      netloc pd.url = nl ∧ ∀ l ∈ links, netloc l = nl)
    (st : CrawlState) (hfront : ∀ u ∈ st.urls_to_visit, netloc u = nl)
    (hpages : ∀ p ∈ st.pages_data, netloc p.url = nl) :
    (∀ u ∈ (processOne mp st pr).urls_to_visit, netloc u = nl) ∧
      (∀ p ∈ (processOne mp st pr).pages_data, netloc p.url = nl) := by
  rcases pr with ⟨u, _ | ⟨pd, links⟩⟩
  · exact ⟨hfront, hpages⟩
  · obtain ⟨hpd, hlinks⟩ := hpr pd links rfl
    simp only [processOne]
    constructor
    · apply addLinks_netloc mp netloc nl links hlinks
      exact hfront
    · rw [addLinks_pages_data]
      intro p hp
      rcases List.mem_append.mp hp with hp | hp
      · exact hpages p hp
      · rcases List.mem_singleton.mp hp with rfl
        exact hpd

theorem foldl_processOne_netloc (mp : Nat) (netloc : String → String)
    (nl : String) :
    ∀ (l : List (String × Option (PageData × List String))),
      (∀ pr ∈ l, ∀ pd links, pr.2 = some (pd, links) →
        netloc pd.url = nl ∧ ∀ lk ∈ links, netloc lk = nl) →
      ∀ st : CrawlState, (∀ u ∈ st.urls_to_visit, netloc u = nl) →
        (∀ p ∈ st.pages_data, netloc p.url = nl) →
        (∀ u ∈ (l.foldl (processOne mp) st).urls_to_visit, netloc u = nl) ∧
          (∀ p ∈ (l.foldl (processOne mp) st).pages_data,
            netloc p.url = nl) := by
  intro l
  induction l with
  | nil => intro _ st hfront hpages; exact ⟨hfront, hpages⟩
  | cons pr rest ih =>
    intro hl st hfront hpages
    rw [List.foldl_cons]
    obtain ⟨h1, h2⟩ := processOne_netloc mp netloc nl pr
      (hl pr (List.mem_cons_self pr rest)) st hfront hpages
    exact ih (fun q hq => hl q (List.mem_cons_of_mem pr hq)) _ h1 h2

theorem crawlLoop_netloc (fetch : String → Option FetchResult)
    (netloc : String → String) (nl : String) (mp conc : Nat)
    (hfetch : ∀ u fr, fetch u = some fr → ∀ l ∈ fr.links, netloc l = nl) :
    ∀ (fuel : Nat) (st : CrawlState) (res : List PageData),
      (∀ u ∈ st.urls_to_visit, netloc u = nl) →
      (∀ p ∈ st.pages_data, netloc p.url = nl) →
      crawlLoop fetch mp conc fuel st = some res →
      ∀ p ∈ res, netloc p.url = nl := by
  intro fuel
  induction fuel with
  | zero => intro st res _ _ h; exact absurd h (by simp [crawlLoop])
  | succ n ih =>
    intro st res hfront hpages h
    rw [crawlLoop] at h
    dsimp only at h
    split_ifs at h with h1 h2
    · refine ih { st with urls_to_visit := st.urls_to_visit.drop conc } res
        ?_ ?_ h
      · intro u hu
        exact hfront u (List.mem_of_mem_drop (by simpa using hu))
      · exact hpages
    · have hpairs : ∀ pr ∈ (List.take conc st.urls_to_visit).zip
          (List.map (taskResult fetch)
            (List.filter (fun u => !st.visited_urls.contains u)
              (List.take conc st.urls_to_visit))),
          ∀ pd links, pr.2 = some (pd, links) →
            netloc pd.url = nl ∧ ∀ lk ∈ links, netloc lk = nl := by
        rintro ⟨pu, pres⟩ hpr pd links hsome
        obtain ⟨hmem1, hmem2⟩ := List.of_mem_zip hpr
        dsimp only at hsome
        rw [hsome] at hmem2
        obtain ⟨u, hu, htr⟩ := List.mem_map.mp hmem2
        obtain ⟨fr, hfr, hpair⟩ := Option.map_eq_some'.mp htr
        injection hpair with hpd hlk
        subst hpd
        subst hlk
        have hunl : netloc u = nl :=
          hfront u (List.mem_of_mem_take (List.mem_filter.mp hu).1)
        exact ⟨hunl, hfetch u fr hfr⟩
      obtain ⟨hf1, hf2⟩ := foldl_processOne_netloc mp netloc nl _ hpairs
        { st with urls_to_visit := st.urls_to_visit.drop conc }
        (fun u hu => hfront u (List.mem_of_mem_drop (by simpa using hu)))
        hpages
      exact ih _ res hf1 hf2 h
    · rcases Option.some_inj.mp h with rfl
      exact hpages

/-- C7: (a) every link retained by the extraction loop of
`_crawl_single_page` has the seed's netloc, and (b) consequently, for any
fetch behaviour whose emitted links all carry the seed's netloc, every page
record returned by `_crawl_website` has the seed's netloc (the frontier only
ever contains the seed and retained links). -/
theorem C7_domain_scope (urljoin : String → String → String)
    (netloc : String → String) (page_url : String) (hrefs : List String)
    (fetch : String → Option FetchResult) (mp conc fuel : Nat)
    (base_url : String) (res : List PageData)
    (hfetch : ∀ u fr, fetch u = some fr →
      ∀ l ∈ fr.links, netloc l = netloc base_url)
    (h : crawl_website fetch mp conc fuel base_url = some res) :
    (∀ l ∈ extract_links urljoin netloc page_url hrefs (netloc base_url),
        netloc l = netloc base_url) ∧
      (∀ p ∈ res, netloc p.url = netloc base_url) := by
  constructor
  · exact extract_links_foldl_netloc urljoin netloc page_url
      (netloc base_url) hrefs [] (by simp)
  · refine crawlLoop_netloc fetch netloc (netloc base_url) mp conc hfetch
      fuel ⟨[], [], [base_url]⟩ res ?_ (by simp) h
    intro u hu
    rcases List.mem_singleton.mp hu with rfl
    rfl

/-- Witness for C7 at a concrete input: `netloc` takes the substring before
the first `/`, the seed page has hrefs `["d/q", "e/r"]` of which only the
first shares the seed netloc `"d"`, and the fetch of every URL fails, so the
completed crawl returns no page records. -/
theorem C7_domain_scope_witness :
    (∀ l ∈ extract_links (fun _ h => h) (fun u => u.takeWhile (· ≠ '/'))
        "d/p" ["d/q", "e/r"] ((fun u => u.takeWhile (· ≠ '/')) "d"),
      (fun u => u.takeWhile (· ≠ '/')) l =
        (fun u => u.takeWhile (· ≠ '/')) "d") ∧
    (∀ p ∈ ([] : List PageData),
      (fun u => u.takeWhile (· ≠ '/')) p.url =
        (fun u => u.takeWhile (· ≠ '/')) "d") :=
  C7_domain_scope (fun _ h => h) (fun u => u.takeWhile (· ≠ '/')) "d/p"
    ["d/q", "e/r"] (fun _ => none) 10 5 5 "d" []
    (fun _ _ hfr => absurd hfr (by simp)) (by decide)

/-! ## Claim C9: retry of transient fetch failures

`_crawl_single_page` is decorated with
`@retry(stop=stop_after_attempt(3), wait=wait_fixed(2))` (tenacity), but its
entire body after the semaphore is wrapped in
`try: ... except Exception: return None` — the coroutine never raises, so
tenacity never observes a failure.  Attempts on one URL are modelled by an
oracle `attempt : Nat → Except String FetchResult` giving the outcome of the
k-th HTTP fetch; the fixed 2-second backoff is timing only and does not
affect the attempt count. -/

/-- One execution of the body of `_crawl_single_page`: an exception from the
fetch (or from parsing) is caught by the catch-all `except` and turned into
the normal return value `None`; a success returns `(page_data, links)`. -/
def crawl_single_page_body (attempt : Nat → Except String FetchResult)
    (k : Nat) : Except String (Option FetchResult) :=
  match attempt k with
  | Except.error _ => Except.ok none
  | Except.ok fr => Except.ok (some fr)

/-- Tenacity's `retry(stop=stop_after_attempt(n))`: run the wrapped call; on
an exception, re-run it until `n` attempts have been made, then re-raise. -/
def tenacityRetry {α : Type} (f : Nat → Except String α) :
    Nat → Nat → Except String α
  | 0, _ => Except.error "stop_after_attempt"
  | n + 1, k =>
    match f k with
    | Except.ok a => Except.ok a
    | Except.error e =>
      match n with
      | 0 => Except.error e
      | m + 1 => tenacityRetry f (m + 1) (k + 1)

/-- `_crawl_single_page` as deployed: the tenacity wrapper with
`stop_after_attempt(3)` around the exception-swallowing body. -/
def crawl_single_page (attempt : Nat → Except String FetchResult) :
    Except String (Option FetchResult) :=
  tenacityRetry (crawl_single_page_body attempt) 3 0

/-- A URL whose fetch raises on the first attempt and succeeds from the
second attempt on. -/
def c9attempt : Nat → Except String FetchResult := fun k =>
  if k = 0 then Except.error "timeout" else Except.ok ⟨"t", "c", []⟩

/-- C9: the claim that a transiently failing fetch is retried up to 3 times
is false on the code: the catch-all `except` inside `_crawl_single_page`
returns `None` on the first exception, so the decorated function gives up
after a single attempt even though the second attempt would succeed — while
the same tenacity wrapper around the raw fetch (without the catch-all) does
return the page. -/
theorem C9_retry_never_fires :
    crawl_single_page c9attempt = Except.ok none ∧
      tenacityRetry c9attempt 3 0 =
        Except.ok (⟨"t", "c", []⟩ : FetchResult) :=
  ⟨rfl, rfl⟩

/-! ## Claim C8: idempotent provisioning

`RAGService.setup_infrastructure_for_kb` against an explicit provider state:
indexes are identified by display name, endpoints carry their display name
and the ids of their deployed indexes. -/

structure Endpoint where
  display_name : String
  deployed_ids : List String
deriving DecidableEq, Repr

structure VectorSearchState where
  indexes : List String
  endpoints : List Endpoint
deriving DecidableEq, Repr

def pyLower (s : String) : String := String.map Char.toLower s

/-- Python `kb_id.replace('_', '-')` (single-character replacement). -/
def replaceUnderscores (s : String) : String :=
  String.map (fun c => if c = '_' then '-' else c) s

/-- `my_endpoint.deploy_index(index, deployed_index_id)`: record the
deployment on the (first) endpoint with the given display name. -/
def deployTo (eps : List Endpoint) (name id : String) : List Endpoint :=
  match eps with
  | [] => []
  | e :: rest =>
    if e.display_name = name then
      { e with deployed_ids := e.deployed_ids ++ [id] } :: rest
    else e :: deployTo rest name id

/-- `display_base_name = kb_id.replace('_', '-').lower()`. -/
def display_base_name (kb_id : String) : String :=
  pyLower (replaceUnderscores kb_id)

/-- `index_display_name = f"{display_base_name}-index"`. -/
def index_display_name (kb_id : String) : String :=
  display_base_name kb_id ++ "-index"

/-- `endpoint_display_name = f"{display_base_name}-endpoint"`. -/
def endpoint_display_name (kb_id : String) : String :=
  display_base_name kb_id ++ "-endpoint"

/-- `deployed_index_id = f"deployed_{kb_id.lower()}"`. -/
def deployed_index_id (kb_id : String) : String :=
  "deployed_" ++ pyLower kb_id

/-- `RAGService.setup_infrastructure_for_kb(kb_id)`: derive the deterministic
display names, reuse the index/endpoint found by display-name listing or
create them, then deploy only if `deployed_index_id` is not already among the
endpoint's deployed indexes.  Returns (state, index, endpoint display name,
deployed index id). -/
def setup_infrastructure_for_kb (kb_id : String) (st : VectorSearchState) :
    VectorSearchState × String × String × String :=
  let found_indexes :=
    st.indexes.filter (fun d => d == index_display_name kb_id)
  let my_index := found_indexes.headD (index_display_name kb_id)
  let st1 :=
    if found_indexes = [] then
      { st with indexes := st.indexes ++ [index_display_name kb_id] }
    else st
  let found_endpoints :=
    st1.endpoints.filter
      (fun e => e.display_name == endpoint_display_name kb_id)
  let my_endpoint := found_endpoints.headD ⟨endpoint_display_name kb_id, []⟩
  let st2 :=
    if found_endpoints = [] then
      { st1 with endpoints :=
        st1.endpoints ++ [⟨endpoint_display_name kb_id, []⟩] }
    else st1
  let st3 :=
    if deployed_index_id kb_id ∈ my_endpoint.deployed_ids then st2
    else { st2 with endpoints :=
      (deployTo st2.endpoints (endpoint_display_name kb_id)
        (deployed_index_id kb_id)) }
  (st3, my_index, my_endpoint.display_name, deployed_index_id kb_id)

theorem deployTo_append (eps : List Endpoint) (e0 : Endpoint)
    (name id : String) (h : ∀ e ∈ eps, ¬ e.display_name = name)
    (he : e0.display_name = name) :
    deployTo (eps ++ [e0]) name id =
      eps ++ [{ e0 with deployed_ids := e0.deployed_ids ++ [id] }] := by
  induction eps with
  | nil => simp [deployTo, he]
  | cons e rest ih =>
    simp only [List.cons_append, deployTo, List.append_eq]
    rw [if_neg (h e (List.mem_cons_self e rest)),
      ih (fun x hx => h x (List.mem_cons_of_mem e hx))]

/-- First call on a state holding no index and no endpoint for `kb_id`: both
are created with their deterministic display names and the index is deployed
under `deployed_index_id`. -/
theorem setup_creates (kb : String) (s0 : VectorSearchState)
    (h1 : ∀ d ∈ s0.indexes, ¬ d = index_display_name kb)
    (h2 : ∀ e ∈ s0.endpoints, ¬ e.display_name = endpoint_display_name kb) :
    setup_infrastructure_for_kb kb s0 =
      (⟨s0.indexes ++ [index_display_name kb],
          s0.endpoints ++
            [⟨endpoint_display_name kb, [deployed_index_id kb]⟩]⟩,
        index_display_name kb, endpoint_display_name kb,
        deployed_index_id kb) := by
  have hf1 : s0.indexes.filter (fun d => d == index_display_name kb) = [] :=
    List.filter_eq_nil_iff.mpr (fun a ha => by simpa using h1 a ha)
  have hf2 : s0.endpoints.filter
      (fun e => e.display_name == endpoint_display_name kb) = [] :=
    List.filter_eq_nil_iff.mpr (fun a ha => by simpa using h2 a ha)
  unfold setup_infrastructure_for_kb
  rw [hf1]
  dsimp only
  rw [if_pos rfl, hf2]
  dsimp only [List.headD_nil]
  rw [if_pos rfl, if_neg (by simp)]
  dsimp only
  rw [deployTo_append s0.endpoints ⟨endpoint_display_name kb, []⟩ _ _ h2 rfl]
  rfl

/-- Second call on a state already holding the index, the endpoint, and the
deployment: nothing is created or deployed, the state is unchanged, and the
same names are returned. -/
theorem setup_reuses (kb : String) (st : VectorSearchState)
    (h1 : st.indexes.filter (fun d => d == index_display_name kb) =
      [index_display_name kb])
    (h2 : st.endpoints.filter
        (fun e => e.display_name == endpoint_display_name kb) =
      [⟨endpoint_display_name kb, [deployed_index_id kb]⟩]) :
    setup_infrastructure_for_kb kb st =
      (st, index_display_name kb, endpoint_display_name kb,
        deployed_index_id kb) := by
  unfold setup_infrastructure_for_kb
  rw [h1]
  dsimp only
  rw [if_neg (List.cons_ne_nil _ _), h2]
  dsimp only [List.headD_cons]
  rw [if_neg (List.cons_ne_nil _ _), if_pos (by simp)]

/-- C8: provisioning is idempotent.  From a state with no index and no
endpoint for `kb_id`, running `setup_infrastructure_for_kb(kb_id)` twice in
sequence is the same as running it once (the second call finds the existing
resources by display name, finds the deployment by membership, creates and
deploys nothing, and returns the same names), and the resulting state holds
exactly one index, one endpoint, and one deployment for `kb_id`. -/
theorem C8_idempotent_provisioning (kb : String) (s0 : VectorSearchState)
    (h1 : ∀ d ∈ s0.indexes, ¬ d = index_display_name kb)
    (h2 : ∀ e ∈ s0.endpoints, ¬ e.display_name = endpoint_display_name kb) :
    setup_infrastructure_for_kb kb (setup_infrastructure_for_kb kb s0).1 =
        setup_infrastructure_for_kb kb s0 ∧
      ((setup_infrastructure_for_kb kb s0).1.indexes.filter
          (fun d => d == index_display_name kb)).length = 1 ∧
      ((setup_infrastructure_for_kb kb s0).1.endpoints.filter
          (fun e => e.display_name == endpoint_display_name kb)).length = 1 ∧
      ∀ e ∈ (setup_infrastructure_for_kb kb s0).1.endpoints,
        e.display_name = endpoint_display_name kb →
          (e.deployed_ids.filter
            (fun d => d == deployed_index_id kb)).length = 1 := by
  have hcreate := setup_creates kb s0 h1 h2
  have hfi : (s0.indexes ++ [index_display_name kb]).filter
      (fun d => d == index_display_name kb) = [index_display_name kb] := by
    rw [List.filter_append,
      List.filter_eq_nil_iff.mpr (fun a ha => by simpa using h1 a ha)]
    simp
  have hfe : (s0.endpoints ++
        [(⟨endpoint_display_name kb, [deployed_index_id kb]⟩ : Endpoint)]).filter
      (fun e => e.display_name == endpoint_display_name kb) =
      [(⟨endpoint_display_name kb, [deployed_index_id kb]⟩ : Endpoint)] := by
    rw [List.filter_append,
      List.filter_eq_nil_iff.mpr (fun a ha => by simpa using h2 a ha)]
    simp
  refine ⟨?_, ?_, ?_, ?_⟩
  · rw [hcreate]
    exact setup_reuses kb _ hfi hfe
  · rw [hcreate, hfi]
    rfl
  · rw [hcreate]
    rw [show ((⟨s0.indexes ++ [index_display_name kb],
        s0.endpoints ++ [(⟨endpoint_display_name kb,
          [deployed_index_id kb]⟩ : Endpoint)]⟩ : VectorSearchState),
        index_display_name kb, endpoint_display_name kb,
        deployed_index_id kb).1.endpoints = s0.endpoints ++
          [(⟨endpoint_display_name kb,
            [deployed_index_id kb]⟩ : Endpoint)] from rfl, hfe]
    rfl
  · rw [hcreate]
    intro e he hname
    rcases List.mem_append.mp he with he | he
    · exact absurd hname (h2 e he)
    · rw [List.mem_singleton.mp he]
      simp

/-- Witness for C8 at a concrete input: `kb_id = "kb_x"` from the empty
provider state. -/
theorem C8_idempotent_provisioning_witness :
    setup_infrastructure_for_kb "kb_x"
        (setup_infrastructure_for_kb "kb_x" ⟨[], []⟩).1 =
        setup_infrastructure_for_kb "kb_x" ⟨[], []⟩ ∧
      ((setup_infrastructure_for_kb "kb_x" ⟨[], []⟩).1.indexes.filter
          (fun d => d == index_display_name "kb_x")).length = 1 ∧
      ((setup_infrastructure_for_kb "kb_x" ⟨[], []⟩).1.endpoints.filter
          (fun e => e.display_name ==
            endpoint_display_name "kb_x")).length = 1 ∧
      ∀ e ∈ (setup_infrastructure_for_kb "kb_x" ⟨[], []⟩).1.endpoints,
        e.display_name = endpoint_display_name "kb_x" →
          (e.deployed_ids.filter
            (fun d => d == deployed_index_id "kb_x")).length = 1 :=
  C8_idempotent_provisioning "kb_x" ⟨[], []⟩ (by simp) (by simp)

/-! ## Claim C10: query-time failure handling

The app-side query path: `RAGKnowledgeSearchTool._async_run` calls
`RAGService.query`, which calls `_get_index_endpoint`; the latter *raises*
`ValueError` when no endpoint with the display name exists ("Re-raise the
exception so the Agent's Tool can catch it"), and the tool's catch-all
converts any exception into an explanatory message string.  External
collaborators (embedding model, endpoint listing, `find_neighbors`, chunk
fetch) are oracles; exceptions are `Except.error`. -/

structure EndpointInfo where
  display_name : String
  resource_name : String
deriving DecidableEq, Repr

structure Neighbor where
  id : String
  distance : Int
deriving DecidableEq, Repr

structure ChunkDoc where
  source_url : String
  content : String
deriving DecidableEq, Repr

/-- The query path's external collaborators.  `fetchChunks` models
`fetch_chunks_by_ids`, whose sync helper catches its own errors and returns a
plain (possibly empty) list. -/
structure RagEnv where
  embed : String → Except String (List Int)
  allEndpoints : List EndpointInfo
  findNeighbors : String → String → List Int → Nat →
    Except String (List (List Neighbor))
  fetchChunks : String → List String → List ChunkDoc

/-- `RAGService._get_index_endpoint` (app variant): consult the cache, else
list the endpoints whose display name matches; an empty listing raises
`ValueError`, otherwise the first match's resource name is used and cached. -/
def get_index_endpoint (env : RagEnv) (cache : List (String × String))
    (display_name : String) :
    Except String (String × List (String × String)) :=
  match cache.lookup display_name with
  | some client => Except.ok (client, cache)
  | none =>
    match env.allEndpoints.filter
        (fun e => e.display_name == display_name) with
    | [] => Except.error ("Endpoint " ++ display_name ++ " not found.")
    | e :: _ =>
      Except.ok (e.resource_name, (display_name, e.resource_name) :: cache)

/-- `RAGService.query`: embed the query, resolve the endpoint,
`find_neighbors`, and collect `(id, distance)` pairs from the first response
list — the result is empty only when the response itself is
(`if response and response[0]`).  Exceptions propagate to the caller. -/
def query (env : RagEnv) (cache : List (String × String))
    (query_text index_endpoint_name deployed_index_id : String)
    (top_k : Nat) : Except String (List (String × Int)) := do
  let query_embedding ← env.embed query_text
  let (client, _cache) ← get_index_endpoint env cache index_endpoint_name
  let response ←
    env.findNeighbors client deployed_index_id query_embedding top_k
  match response with
  | [] => Except.ok []
  | first :: _ =>
    if first = [] then Except.ok []
    else Except.ok (first.map (fun n => (n.id, n.distance)))

/-- Python `needle in hay` (substring containment). -/
def strContainsSub (hay needle : List Char) : Bool :=
  (List.range (hay.length + 1)).any (fun i => needle.isPrefixOf (hay.drop i))

/-- The `try` block of `RAGKnowledgeSearchTool._async_run`: query with
`top_k = 3`, then resolve the chunk ids to stored chunks and assemble the
context string; the early returns for an empty neighbor list and an empty
chunk list are messages, not errors. -/
def asyncRunBody (env : RagEnv) (cache : List (String × String))
    (kb_id index_endpoint_name deployed_index_id q : String) :
    Except String String := do
  let neighbor_results ←
    query env cache q index_endpoint_name deployed_index_id 3
  if neighbor_results = [] then
    Except.ok "No relevant context information found in the knowledge base."
  else
    let chunk_ids := neighbor_results.map Prod.fst
    let chunk_docs := env.fetchChunks kb_id chunk_ids
    if chunk_docs = [] then
      Except.ok "Found relevant IDs but could not retrieve content. The knowledge base might be inconsistent."
    else
      Except.ok (String.intercalate "\n\n---\n\n"
        (chunk_docs.map (fun doc =>
          "Source: " ++ doc.source_url ++ "\nContent: " ++ doc.content)))

/-- `RAGKnowledgeSearchTool._async_run`: the catch-all `except` turns any
exception into an explanatory message string (distinguishing the
invalid-argument case by substring test, and truncating `str(e)` to 100
characters). -/
def async_run (env : RagEnv) (cache : List (String × String))
    (kb_id index_endpoint_name deployed_index_id q : String) :
    Except String String :=
  match asyncRunBody env cache kb_id index_endpoint_name
      deployed_index_id q with
  | Except.ok s => Except.ok s
  | Except.error e =>
    Except.ok
      (if strContainsSub e.toList
          "400 Request contains an invalid argument".toList then
        "The knowledge base search service is not properly configured. The search endpoint may not exist or may not be accessible."
      else "Knowledge base search failed. Error: " ++ e.take 100)

/-- A provider state with no endpoints at all (the knowledge base's endpoint
is not configured); embedding succeeds. -/
def c10env : RagEnv where
  embed := fun _ => Except.ok [1]
  allEndpoints := []
  findNeighbors := fun _ _ _ _ => Except.ok []
  fetchChunks := fun _ _ => []

/-- C10 counterexample: when the index endpoint for the knowledge base is not
found, `RAGService.query` raises (`ValueError` from `_get_index_endpoint`)
instead of returning an empty result set, contradicting the claim that the
query operation returns an empty result rather than raising. -/
theorem C10_query_raises_on_missing_endpoint :
    query c10env [] "hello" "kb-x-endpoint" "deployed_kb_x" 3 =
        Except.error "Endpoint kb-x-endpoint not found." ∧
      query c10env [] "hello" "kb-x-endpoint" "deployed_kb_x" 3 ≠
        Except.ok [] := by
  refine ⟨rfl, ?_⟩
  intro hcon
  rw [show query c10env [] "hello" "kb-x-endpoint" "deployed_kb_x" 3 =
    Except.error "Endpoint kb-x-endpoint not found." from rfl] at hcon
  exact Except.noConfusion hcon

/-- C10 (amended): no query-time failure ever propagates from the agent tool
as an exception — for every environment, cache and query,
`_async_run` returns a plain string (`Except.ok`): internal errors are
converted into message strings by the catch-all.  However, the
missing-endpoint case reaches the tool as an exception from
`RAGService.query` and is converted to an error *message*, not to an empty
result set (see the counterexample). -/
theorem C10_tool_never_raises (env : RagEnv) (cache : List (String × String))
    (kb_id index_endpoint_name deployed_index_id q : String) :
    ∃ s, async_run env cache kb_id index_endpoint_name deployed_index_id q =
      Except.ok s := by
  unfold async_run
  cases asyncRunBody env cache kb_id index_endpoint_name
      deployed_index_id q with
  | ok s => exact ⟨s, rfl⟩
  | error e => exact ⟨_, rfl⟩

end GkeHackathon
